import Mathlib

/-!
Shallow embedding of the DNS lookup client (src/mydns.py and src/dns.py).

Python byte strings and text strings are both modelled as `List Nat`:
a byte string is a list of byte values (0..255), a text string a list of
Unicode code points.  `Option` models Python exceptions: `none` is a raised
exception (IndexError, struct.error, UnicodeDecodeError, UnicodeEncodeError).
Unbounded Python loops are given explicit fuel; running out of fuel also
yields `none`, so every `some` result corresponds to an actual return of the
Python function.
-/

namespace DNS

/-- Bytes and strings: a list of byte values or code points. -/
abbrev Bytes := List Nat

/-- Python's `".".join(labels)`: the pieces joined with the dot character
(code point 46). -/
def joinDots : List Bytes → Bytes
  | [] => []
  | [l] => l
  | l :: l2 :: ls => l ++ 46 :: joinDots (l2 :: ls)

/-- Python's `s.split(".")`: split on the dot character; an empty string
splits to one empty piece. -/
def splitDots : Bytes → List Bytes
  | [] => [[]]
  | c :: rest =>
    if c = 46 then [] :: splitDots rest
    else
      match splitDots rest with
      | [] => [[c]]
      | l :: ls => (c :: l) :: ls

/-- Python's `bs.decode("ascii")`: succeeds iff every byte is below 128,
and then the decoded string has exactly those values as code points. -/
def decodeAscii (bs : Bytes) : Option Bytes :=
  if bs.all (· < 128) then some bs else none

/-- The while-loop of `parse_name` (src/mydns.py lines 45-74), one
constructor application per loop iteration.  State threaded exactly as in
the source: current `offset`, the `jumped` flag, the accumulated `labels`,
and `original_offset`.  A byte read `message[offset]` out of range raises
IndexError (`none`); the slice `message[offset:offset+length]` is clamped,
as in Python. -/
def parseNameAux (msg : Bytes) : Nat → Nat → Bool → List Bytes → Nat → Option (Bytes × Nat)
  | 0, _, _, _, _ => none
  | fuel + 1, off, jumped, acc, orig =>
    match msg[off]? with
    | none => none
    | some length =>
      if length &&& 0xC0 = 0xC0 then
        match msg[off + 1]? with
        | none => none
        | some b2 =>
          parseNameAux msg fuel (((length &&& 0x3F) <<< 8) ||| b2) true acc
            (if jumped then orig else off + 2)
      else if length = 0 then
        some (joinDots acc, if jumped then orig else off + 1)
      else
        match decodeAscii ((msg.drop (off + 1)).take length) with
        | none => none
        | some label => parseNameAux msg fuel (off + 1 + length) jumped (acc ++ [label]) orig

/-- `parse_name(message, offset)` from src/mydns.py: decode a possibly
compressed domain name, returning the name and the offset at which normal
parsing resumes. -/
def parse_name (msg : Bytes) (fuel off : Nat) : Option (Bytes × Nat) :=
  parseNameAux msg fuel off false [] off

/-- Transcription of the specification sentence describing the resume
offset: scan the original field forward, consuming plain labels; the field
ends two bytes past the first pointer byte encountered (flag `true`), or
one byte past the zero terminator (flag `false`).  Nothing after the first
pointer is examined. -/
def specFieldEnd (msg : Bytes) : Nat → Nat → Option (Nat × Bool)
  | 0, _ => none
  | fuel + 1, off =>
    match msg[off]? with
    | none => none
    | some length =>
      if length &&& 0xC0 = 0xC0 then some (off + 2, true)
      else if length = 0 then some (off + 1, false)
      else specFieldEnd msg fuel (off + 1 + length)

/-- Transcription of the specification sentence describing the decoded
labels: read length-prefixed labels in order, following every compression
pointer, until the zero terminator. -/
def specCollectLabels (msg : Bytes) : Nat → Nat → Option (List Bytes)
  | 0, _ => none
  | fuel + 1, off =>
    match msg[off]? with
    | none => none
    | some length =>
      if length &&& 0xC0 = 0xC0 then
        match msg[off + 1]? with
        | none => none
        | some b2 => specCollectLabels msg fuel (((length &&& 0x3F) <<< 8) ||| b2)
      else if length = 0 then some []
      else
        match decodeAscii ((msg.drop (off + 1)).take length) with
        | none => none
        | some label => (specCollectLabels msg fuel (off + 1 + length)).map (label :: ·)

/-- Interpreted rdata as stored in the record dictionary: a Python `str`
(IPv4 dotted string or decoded NS name) or a raw Python `bytes` payload. -/
inductive RData
  | str (s : Bytes)
  | bytes (bs : Bytes)
  deriving DecidableEq, Repr

/-- The dictionary built for one resource record (src/mydns.py lines 97-104).
`rtype`/`rclass` are the "type"/"class" keys. -/
structure ResourceRecord where
  name : Bytes
  rtype : Nat
  rclass : Nat
  ttl : Nat
  rdlength : Nat
  rdata : RData
  deriving DecidableEq, Repr

/-- Big-endian 16-bit read at position `i` (used only where the 10-byte
slice is known to be in range). -/
def readU16 (msg : Bytes) (i : Nat) : Nat :=
  256 * msg.getD i 0 + msg.getD (i + 1) 0

/-- Big-endian 32-bit read at position `i`. -/
def readU32 (msg : Bytes) (i : Nat) : Nat :=
  256 * (256 * (256 * msg.getD i 0 + msg.getD (i + 1) 0) + msg.getD (i + 2) 0)
    + msg.getD (i + 3) 0

/-- Decimal digits of `n`, most significant first (fuelled division). -/
def decDigitsAux : Nat → Nat → Bytes
  | 0, _ => []
  | fuel + 1, n => if n < 10 then [48 + n] else decDigitsAux fuel (n / 10) ++ [48 + n % 10]

/-- Python's `str(n)` for a nonnegative integer: its decimal digits. -/
def natStr (n : Nat) : Bytes := decDigitsAux (n + 1) n

/-- One iteration of the `parse_resource_records` loop
(src/mydns.py lines 81-105): owner name, 10-byte fixed header
(`struct.unpack` raises unless the slice is exactly 10 bytes), interpreted
rdata, and the cursor moved to `rdata_start + rdlength`. -/
def parseRR (msg : Bytes) (fuel off : Nat) : Option (ResourceRecord × Nat) :=
  match parse_name msg fuel off with
  | none => none
  | some (name, off1) =>
    if off1 + 10 ≤ msg.length then
      match
        (if readU16 msg off1 = 1 ∧ readU16 msg (off1 + 8) = 4 then
          some (RData.str (joinDots (((msg.drop (off1 + 10)).take 4).map natStr)))
        else if readU16 msg off1 = 2 then
          match parse_name msg fuel (off1 + 10) with
          | none => none
          | some (ns, _) => some (RData.str ns)
        else
          some (RData.bytes ((msg.drop (off1 + 10)).take (readU16 msg (off1 + 8))))) with
      | none => none
      | some rdata =>
        some ({ name := name, rtype := readU16 msg off1, rclass := readU16 msg (off1 + 2),
                ttl := readU32 msg (off1 + 4), rdlength := readU16 msg (off1 + 8),
                rdata := rdata }, off1 + 10 + readU16 msg (off1 + 8))
    else none

/-- `parse_resource_records(message, count, offset)` from src/mydns.py:
`count` consecutive resource records and the final cursor. -/
def parse_resource_records (msg : Bytes) (fuel : Nat) : Nat → Nat → Option (List ResourceRecord × Nat)
  | 0, off => some ([], off)
  | n + 1, off =>
    match parseRR msg fuel off with
    | none => none
    | some (rec, off2) =>
      match parse_resource_records msg fuel n off2 with
      | none => none
      | some (recs, off3) => some (rec :: recs, off3)

/-- The parsed-response dictionary (src/mydns.py lines 129-135). -/
structure ParsedResponse where
  id : Nat
  flags : Nat
  answers : List ResourceRecord
  authorities : List ResourceRecord
  additionals : List ResourceRecord
  deriving DecidableEq, Repr

/-- The question-skipping loop of `parse_dns_response`
(src/mydns.py lines 121-123): parse and discard a name, then skip the four
QTYPE/QCLASS bytes (no read is performed for them). -/
def skipQuestions (msg : Bytes) (fuel : Nat) : Nat → Nat → Option Nat
  | 0, off => some off
  | q + 1, off =>
    match parse_name msg fuel off with
    | none => none
    | some (_, off1) => skipQuestions msg fuel q (off1 + 4)

/-- `parse_dns_response(message)` from src/mydns.py: 12-byte header
(`struct.unpack` raises on a shorter message), question skipping, then the
answer, authority and additional sections in order. -/
def parse_dns_response (fuel : Nat) (msg : Bytes) : Option ParsedResponse :=
  if 12 ≤ msg.length then
    match skipQuestions msg fuel (readU16 msg 4) 12 with
    | none => none
    | some off =>
      match parse_resource_records msg fuel (readU16 msg 6) off with
      | none => none
      | some (answers, off1) =>
        match parse_resource_records msg fuel (readU16 msg 8) off1 with
        | none => none
        | some (authorities, off2) =>
          match parse_resource_records msg fuel (readU16 msg 10) off2 with
          | none => none
          | some (additionals, _) =>
            some { id := readU16 msg 0, flags := readU16 msg 2, answers := answers,
                   authorities := authorities, additionals := additionals }
  else none

/-- Python's `add["name"] == ns`: the owner name (a `str`) compared with an
rdata value; in Python a `str` never equals a `bytes`. -/
def nameEqRData (name : Bytes) (r : RData) : Bool :=
  match r with
  | .str s => name == s
  | .bytes _ => false

/-- `ns_names` (src/mydns.py line 156): rdata of every authority record of
type 2. -/
def nsTargets (p : ParsedResponse) : List RData :=
  (p.authorities.filter (fun rr => decide (rr.rtype = 2))).map (·.rdata)

/-- `additional_as` (src/mydns.py line 157): every additional record of
type 1. -/
def additionalARecords (p : ParsedResponse) : List ResourceRecord :=
  p.additionals.filter (fun rr => decide (rr.rtype = 1))

/-- The nested for-loops of `choose_next_server` (src/mydns.py lines
159-162): for each NS name in order, the first additional A record whose
owner name equals it. -/
def findGlue : List RData → List ResourceRecord → Option ResourceRecord
  | [], _ => none
  | ns :: rest, adds =>
    match adds.find? (fun add => nameEqRData add.name ns) with
    | some a => some a
    | none => findGlue rest adds

/-- `choose_next_server(parsed_response)` from src/mydns.py. -/
def choose_next_server (p : ParsedResponse) : Option RData :=
  match findGlue (nsTargets p) (additionalARecords p) with
  | some a => some a.rdata
  | none =>
    match additionalARecords p with
    | [] => none
    | a :: _ => some a.rdata

/-- Transcription of the claim's description of next-server selection:
scan NS target names in section order, for each taking the first additional
A record with a matching owner name; otherwise fall back to the first
additional A record; otherwise no server. -/
def specChooseNextServer (p : ParsedResponse) : Option RData :=
  match (nsTargets p).findSome?
      (fun ns => ((additionalARecords p).find? (fun add => nameEqRData add.name ns)).map (·.rdata)) with
  | some r => some r
  | none => (additionalARecords p).head?.map (·.rdata)

/-- The collection loop of `extract_answer_ips` (src/mydns.py lines
171-174): rdata of every record of type 1, in order. -/
def extractIpsLoop : List ResourceRecord → List RData
  | [] => []
  | rr :: rest =>
    if rr.rtype = 1 then rr.rdata :: extractIpsLoop rest else extractIpsLoop rest

/-- `extract_answer_ips(parsed_response)` from src/mydns.py. -/
def extract_answer_ips (p : ParsedResponse) : List RData :=
  extractIpsLoop p.answers

/-- The socket state set up before the loop: `udp_socket.settimeout(5.0)`
(src/mydns.py line 187) is performed once; the five-second timeout is
modelled as the natural number 5. -/
structure Session where
  timeoutSeconds : Nat

/-- Session produced by the setup lines 186-187 of src/mydns.py. -/
def setupSession : Session := { timeoutSeconds := 5 }

/-- How a run of `main`'s loop ends.  `crashed` models an exception raised
by `parse_dns_response` (line 203), which is outside the try/except and so
escapes `main` uncaught. -/
inductive RunResult
  | answered (ips : List RData)
  | noNextServer
  | timedOut
  | crashed
  deriving DecidableEq, Repr

/-- The resolution loop of `main` (src/mydns.py lines 189-227).  The
transport is modelled by the list of datagrams the socket would deliver,
`none` standing for `socket.timeout` on `recvfrom`.  Each iteration records
the pair (server queried, receive timeout in force at that receive).  The
outer `none` means the loop is still running when the fuel runs out (it has
no iteration cap) or would block forever on an exhausted reply list. -/
def resolveLoop (fn : Nat) (sess : Session) :
    Nat → RData → List (Option Bytes) → Option (List (RData × Nat) × RunResult)
  | 0, _, _ => none
  | _ + 1, _, [] => none
  | fuel + 1, server, reply :: rest =>
    match reply with
    | none => some ([(server, sess.timeoutSeconds)], .timedOut)
    | some data =>
      match parse_dns_response fn data with
      | none => some ([(server, sess.timeoutSeconds)], .crashed)
      | some parsed =>
        if extract_answer_ips parsed = [] then
          match choose_next_server parsed with
          | none => some ([(server, sess.timeoutSeconds)], .noNextServer)
          | some next =>
            (resolveLoop fn sess fuel next rest).map
              (fun pr => ((server, sess.timeoutSeconds) :: pr.1, pr.2))
        else
          some ([(server, sess.timeoutSeconds)], .answered (extract_answer_ips parsed))

/-- `struct.pack(">H", n)`: two big-endian bytes; struct.error when out of
the 16-bit range. -/
def packH (n : Nat) : Option Bytes :=
  if n < 65536 then some [n / 256, n % 256] else none

/-- `struct.pack("B", n)`: one byte; struct.error when out of range. -/
def packB (n : Nat) : Option Bytes :=
  if n < 256 then some [n] else none

/-- `label.encode("ascii")`: UnicodeEncodeError on a code point of 128 or
more; otherwise the bytes are exactly the code points. -/
def encodeAscii (l : Bytes) : Option Bytes :=
  if l.all (· < 128) then some l else none

/-- The qname loop of `build_dns_query` (src/mydns.py lines 28-33 without
the final zero byte): a length byte then the ASCII bytes, per label. -/
def encodeQname : List Bytes → Option Bytes
  | [] => some []
  | label :: rest =>
    match packB label.length with
    | none => none
    | some lb =>
      match encodeAscii label with
      | none => none
      | some cb =>
        match encodeQname rest with
        | none => none
        | some rb => some (lb ++ cb ++ rb)

/-- `build_dns_query(domain_name)` (src/mydns.py lines 9-42), with the
random 16-bit transaction id supplied as a parameter (injectable
randomness; `random.getrandbits(16)` always yields a value below 65536).
The five constant header fields and qtype/qclass are the evaluated results
of `struct.pack(">H", ·)` on 0x0100, 1, 0, 0, 0, 1, 1. -/
def build_dns_query (transactionId : Nat) (domain : Bytes) : Option (Nat × Bytes) :=
  match packH transactionId with
  | none => none
  | some hid =>
    match encodeQname (splitDots domain) with
    | none => none
    | some qn =>
      some (transactionId,
        hid ++ [1, 0] ++ [0, 1] ++ [0, 0] ++ [0, 0] ++ [0, 0] ++ (qn ++ [0]) ++ [0, 1] ++ [0, 1])

/-- One code point through `str.encode()` (UTF-8, Python's default);
surrogate code points raise UnicodeEncodeError. -/
def utf8Char (c : Nat) : Option Bytes :=
  if c < 128 then some [c]
  else if c < 2048 then some [192 ||| (c >>> 6), 128 ||| (c &&& 63)]
  else if c < 55296 then
    some [224 ||| (c >>> 12), 128 ||| ((c >>> 6) &&& 63), 128 ||| (c &&& 63)]
  else if c < 57344 then none
  else if c < 65536 then
    some [224 ||| (c >>> 12), 128 ||| ((c >>> 6) &&& 63), 128 ||| (c &&& 63)]
  else
    some [240 ||| (c >>> 18), 128 ||| ((c >>> 12) &&& 63), 128 ||| ((c >>> 6) &&& 63),
          128 ||| (c &&& 63)]

/-- `part.encode()`: UTF-8 encoding of a whole string. -/
def encodeUtf8 : Bytes → Option Bytes
  | [] => some []
  | c :: rest =>
    match utf8Char c with
    | none => none
    | some cb =>
      match encodeUtf8 rest with
      | none => none
      | some rb => some (cb ++ rb)

/-- The qname loop of `build_query_packet` (src/dns.py lines 35-39), which
uses `part.encode()` (UTF-8) rather than `encode("ascii")`. -/
def encodeQnameUtf8 : List Bytes → Option Bytes
  | [] => some []
  | part :: rest =>
    match packB part.length with
    | none => none
    | some lb =>
      match encodeUtf8 part with
      | none => none
      | some rb2 =>
        match encodeQnameUtf8 rest with
        | none => none
        | some rb => some (lb ++ rb2 ++ rb)

/-- `build_query_packet(domain)` (src/dns.py lines 21-46), with the random
transaction id supplied as a parameter (`random.randint(0, 65535)` always
yields a value below 65536).  Returns the packet and the id, in that
order. -/
def build_query_packet (tid : Nat) (domain : Bytes) : Option (Bytes × Nat) :=
  match packH tid with
  | none => none
  | some hid =>
    match encodeQnameUtf8 (splitDots domain) with
    | none => none
    | some qn =>
      some (hid ++ [1, 0] ++ [0, 1] ++ [0, 0] ++ [0, 0] ++ [0, 0] ++ (qn ++ [0]) ++ [0, 1]
              ++ [0, 1], tid)

/-- The claim's wire layout of an encoded label sequence: for each label a
one-byte length prefix followed by the label's bytes, in order. -/
def specEncodeLabels : List Bytes → Bytes
  | [] => []
  | l :: ls => l.length :: (l ++ specEncodeLabels ls)

/-- Message for the C1 witness: "com" spelled out at offset 0, a
pure-pointer name at offset 5, and at offset 7 the label "hi" followed by
a pointer to offset 5 — a nested pointer chain. -/
def c1msg : Bytes := [3, 99, 111, 109, 0, 192, 0, 2, 104, 105, 192, 5]

/-- Buffer for the C2 witness: an A record (type 1, rdlength 4) followed
by a record of unknown type 99 with rdlength 3. -/
def c2msg : Bytes :=
  [1, 97, 0, 0, 1, 0, 1, 0, 0, 0, 0, 0, 4, 10, 0, 0, 1,
   0, 0, 99, 0, 1, 0, 0, 0, 0, 0, 3, 7, 8, 9]

/-- The two records decoded from `c2msg`. -/
def c2recs : List ResourceRecord :=
  [{ name := [97], rtype := 1, rclass := 1, ttl := 0, rdlength := 4,
     rdata := RData.str [49, 48, 46, 48, 46, 48, 46, 49] },
   { name := [], rtype := 99, rclass := 1, ttl := 0, rdlength := 3,
     rdata := RData.bytes [7, 8, 9] }]

/-- Parsed response for the C3 witness, the spec's selection test vector:
authority NS records a→n1 and a→n2, one additional A record for n2. -/
def c3resp : ParsedResponse :=
  { id := 0, flags := 0, answers := [],
    authorities :=
      [{ name := [97], rtype := 2, rclass := 1, ttl := 0, rdlength := 4,
         rdata := RData.str [110, 49] },
       { name := [97], rtype := 2, rclass := 1, ttl := 0, rdlength := 4,
         rdata := RData.str [110, 50] }],
    additionals :=
      [{ name := [110, 50], rtype := 1, rclass := 1, ttl := 0, rdlength := 4,
         rdata := RData.str [49, 48, 46, 48, 46, 48, 46, 50] }] }

/-- Parsed response for the C3 witness with NS records but no additional
A record at all. -/
def c3noglue : ParsedResponse :=
  { id := 0, flags := 0, answers := [],
    authorities :=
      [{ name := [97], rtype := 2, rclass := 1, ttl := 0, rdlength := 4,
         rdata := RData.str [110, 49] }],
    additionals := [] }

/-- Datagram for the C3 witness run: one authority NS record, empty answer
and additional sections. -/
def c3msg : Bytes :=
  [0, 0, 128, 0, 0, 0, 0, 0, 0, 1, 0, 0,
   0, 0, 2, 0, 1, 0, 0, 0, 0, 0, 4, 2, 110, 115, 0]

/-- Datagram for the C4 witness: one A answer, one NS authority record and
one additional A record, all non-empty sections. -/
def c4msg : Bytes :=
  [0, 0, 128, 0, 0, 0, 0, 1, 0, 1, 0, 1,
   0, 0, 1, 0, 1, 0, 0, 0, 0, 0, 4, 93, 184, 216, 34,
   0, 0, 2, 0, 1, 0, 0, 0, 0, 0, 4, 2, 110, 115, 0,
   2, 110, 115, 0, 0, 1, 0, 1, 0, 0, 0, 0, 0, 4, 10, 0, 0, 2]

/-- The parsed form of `c4msg`. -/
def c4resp : ParsedResponse :=
  { id := 0, flags := 32768,
    answers :=
      [{ name := [], rtype := 1, rclass := 1, ttl := 0, rdlength := 4,
         rdata := RData.str [57, 51, 46, 49, 56, 52, 46, 50, 49, 54, 46, 51, 52] }],
    authorities :=
      [{ name := [], rtype := 2, rclass := 1, ttl := 0, rdlength := 4,
         rdata := RData.str [110, 115] }],
    additionals :=
      [{ name := [110, 115], rtype := 1, rclass := 1, ttl := 0, rdlength := 4,
         rdata := RData.str [49, 48, 46, 48, 46, 48, 46, 50] }] }

/-- Datagram for the C10 theorem and witness: a single answer record of
type 1 whose declared rdata length is 6. -/
def c10msg : Bytes :=
  [0, 0, 128, 0, 0, 0, 0, 1, 0, 0, 0, 0,
   0, 0, 1, 0, 1, 0, 0, 0, 0, 0, 6, 1, 2, 3, 4, 5, 6]

/-! ## Lemmas about `parse_name` -/

/-- After the first compression jump, the recorded resume offset is
returned unchanged, and the remaining labels are those collected from the
current position onwards. -/
theorem parseNameAux_jumped (msg : Bytes) :
    ∀ fuel off acc orig nm res,
      parseNameAux msg fuel off true acc orig = some (nm, res) →
      res = orig ∧ ∃ labs, specCollectLabels msg fuel off = some labs ∧
        nm = joinDots (acc ++ labs) := by
  intro fuel
  induction fuel with
  | zero =>
    intro off acc orig nm res h
    simp [parseNameAux] at h
  | succ fuel ih =>
    intro off acc orig nm res h
    rw [parseNameAux] at h
    cases hoff : msg[off]? with
    | none => rw [hoff] at h; simp at h
    | some length =>
      rw [hoff] at h
      simp only at h
      by_cases hptr : length &&& 0xC0 = 0xC0
      · rw [if_pos hptr] at h
        cases hb2 : msg[off + 1]? with
        | none => rw [hb2] at h; simp at h
        | some b2 =>
          rw [hb2] at h
          simp only at h
          rw [if_pos trivial] at h
          obtain ⟨hres, labs, hcol, hnm⟩ := ih _ acc orig nm res h
          refine ⟨hres, labs, ?_, hnm⟩
          simp only [specCollectLabels, hoff, hb2]
          rw [if_pos hptr]
          exact hcol
      · rw [if_neg hptr] at h
        by_cases h0 : length = 0
        · rw [if_pos h0, if_pos trivial] at h
          simp only [Option.some.injEq, Prod.mk.injEq] at h
          refine ⟨h.2.symm, [], ?_, ?_⟩
          · simp only [specCollectLabels, hoff]
            rw [if_neg hptr, if_pos h0]
          · simp [h.1.symm]
        · rw [if_neg h0] at h
          cases hdec : decodeAscii ((msg.drop (off + 1)).take length) with
          | none => rw [hdec] at h; simp at h
          | some label =>
            rw [hdec] at h
            simp only at h
            obtain ⟨hres, labs, hcol, hnm⟩ := ih _ (acc ++ [label]) orig nm res h
            refine ⟨hres, label :: labs, ?_, ?_⟩
            · simp only [specCollectLabels, hoff, hdec]
              rw [if_neg hptr, if_neg h0]
              simp [hcol]
            · rw [hnm]
              simp [List.append_assoc]

/-- Before any jump, the returned resume offset is described by the
forward scan `specFieldEnd`, and the name by `specCollectLabels`. -/
theorem parseNameAux_forward (msg : Bytes) :
    ∀ fuel off acc orig nm res,
      parseNameAux msg fuel off false acc orig = some (nm, res) →
      (∃ ptr, specFieldEnd msg fuel off = some (res, ptr)) ∧
      ∃ labs, specCollectLabels msg fuel off = some labs ∧ nm = joinDots (acc ++ labs) := by
  intro fuel
  induction fuel with
  | zero =>
    intro off acc orig nm res h
    simp [parseNameAux] at h
  | succ fuel ih =>
    intro off acc orig nm res h
    rw [parseNameAux] at h
    cases hoff : msg[off]? with
    | none => rw [hoff] at h; simp at h
    | some length =>
      rw [hoff] at h
      simp only at h
      by_cases hptr : length &&& 0xC0 = 0xC0
      · rw [if_pos hptr] at h
        cases hb2 : msg[off + 1]? with
        | none => rw [hb2] at h; simp at h
        | some b2 =>
          rw [hb2] at h
          simp only at h
          rw [if_neg (by simp)] at h
          obtain ⟨hres, labs, hcol, hnm⟩ := parseNameAux_jumped msg fuel _ acc (off + 2) nm res h
          refine ⟨⟨true, ?_⟩, labs, ?_, hnm⟩
          · simp only [specFieldEnd, hoff]
            rw [if_pos hptr, hres]
          · simp only [specCollectLabels, hoff, hb2]
            rw [if_pos hptr]
            exact hcol
      · rw [if_neg hptr] at h
        by_cases h0 : length = 0
        · rw [if_pos h0, if_neg (by simp)] at h
          simp only [Option.some.injEq, Prod.mk.injEq] at h
          refine ⟨⟨false, ?_⟩, [], ?_, ?_⟩
          · simp only [specFieldEnd, hoff]
            rw [if_neg hptr, if_pos h0, h.2]
          · simp only [specCollectLabels, hoff]
            rw [if_neg hptr, if_pos h0]
          · simp [h.1.symm]
        · rw [if_neg h0] at h
          cases hdec : decodeAscii ((msg.drop (off + 1)).take length) with
          | none => rw [hdec] at h; simp at h
          | some label =>
            rw [hdec] at h
            simp only at h
            obtain ⟨⟨ptr, hfe⟩, labs, hcol, hnm⟩ := ih _ (acc ++ [label]) orig nm res h
            refine ⟨⟨ptr, ?_⟩, label :: labs, ?_, ?_⟩
            · simp only [specFieldEnd, hoff]
              rw [if_neg hptr, if_neg h0]
              exact hfe
            · simp only [specCollectLabels, hoff, hdec]
              rw [if_neg hptr, if_neg h0]
              simp [hcol]
            · rw [hnm]
              simp [List.append_assoc]

/-- The forward scan always moves strictly forward. -/
theorem specFieldEnd_lt (msg : Bytes) :
    ∀ fuel off res ptr, specFieldEnd msg fuel off = some (res, ptr) → off < res := by
  intro fuel
  induction fuel with
  | zero => intro off res ptr h; simp [specFieldEnd] at h
  | succ fuel ih =>
    intro off res ptr h
    rw [specFieldEnd] at h
    cases hoff : msg[off]? with
    | none => rw [hoff] at h; simp at h
    | some length =>
      rw [hoff] at h
      simp only at h
      by_cases hptr : length &&& 0xC0 = 0xC0
      · rw [if_pos hptr] at h
        simp only [Option.some.injEq, Prod.mk.injEq] at h
        omega
      · rw [if_neg hptr] at h
        by_cases h0 : length = 0
        · rw [if_pos h0] at h
          simp only [Option.some.injEq, Prod.mk.injEq] at h
          omega
        · rw [if_neg h0] at h
          have := ih _ _ _ h
          omega

/-- The forward scan classified by the first byte of the field. -/
theorem specFieldEnd_first (msg : Bytes) (fuel off res : Nat) (ptr : Bool) (b : Nat)
    (h : specFieldEnd msg fuel off = some (res, ptr)) (hb : msg[off]? = some b) :
    (b &&& 0xC0 = 0xC0 → res = off + 2) ∧ (¬ b &&& 0xC0 = 0xC0 → off + 1 ≤ res) := by
  cases fuel with
  | zero => simp [specFieldEnd] at h
  | succ fuel =>
    rw [specFieldEnd, hb] at h
    simp only at h
    by_cases hptr : b &&& 0xC0 = 0xC0
    · rw [if_pos hptr] at h
      simp only [Option.some.injEq, Prod.mk.injEq] at h
      exact ⟨fun _ => by omega, fun hn => absurd hptr hn⟩
    · rw [if_neg hptr] at h
      by_cases h0 : b = 0
      · rw [if_pos h0] at h
        simp only [Option.some.injEq, Prod.mk.injEq] at h
        exact ⟨fun hc => absurd hc hptr, fun _ => by omega⟩
      · rw [if_neg h0] at h
        have := specFieldEnd_lt msg fuel (off + 1 + b) res ptr h
        exact ⟨fun hc => absurd hc hptr, fun _ => by omega⟩

/-! ## Lemmas about resource-record parsing -/

/-- Inversion for one record: the cursor after the record is the end of the
owner name plus the 10 fixed header bytes plus the declared rdata length,
whatever the record type and whatever the rdata interpretation consumed. -/
theorem parseRR_offset (msg : Bytes) (fuel off : Nat) (rec : ResourceRecord) (off2 : Nat)
    (h : parseRR msg fuel off = some (rec, off2)) :
    ∃ ne, parse_name msg fuel off = some (rec.name, ne) ∧
      ne + 10 ≤ msg.length ∧ off2 = ne + 10 + rec.rdlength := by
  unfold parseRR at h
  cases hpn : parse_name msg fuel off with
  | none => rw [hpn] at h; simp at h
  | some p =>
    obtain ⟨name, off1⟩ := p
    rw [hpn] at h
    simp only at h
    by_cases h10 : off1 + 10 ≤ msg.length
    · rw [if_pos h10] at h
      cases hrd :
          (if readU16 msg off1 = 1 ∧ readU16 msg (off1 + 8) = 4 then
            some (RData.str (joinDots (((msg.drop (off1 + 10)).take 4).map natStr)))
          else if readU16 msg off1 = 2 then
            match parse_name msg fuel (off1 + 10) with
            | none => none
            | some (ns, _) => some (RData.str ns)
          else
            some (RData.bytes ((msg.drop (off1 + 10)).take (readU16 msg (off1 + 8))))) with
      | none => rw [hrd] at h; simp at h
      | some rdata =>
        rw [hrd] at h
        simp only [Option.some.injEq, Prod.mk.injEq] at h
        obtain ⟨hrec, hoff2⟩ := h
        subst hrec
        subst hoff2
        exact ⟨off1, by simp [hpn], h10, rfl⟩
    · rw [if_neg h10] at h
      simp at h

/-- Shape of a parsed record list: the count is honoured, a zero count
leaves the cursor unchanged, and for a positive count the final cursor is
the one returned by parsing the last record. -/
theorem parse_resource_records_shape (msg : Bytes) (fuel : Nat) :
    ∀ n off recs off2, parse_resource_records msg fuel n off = some (recs, off2) →
      recs.length = n ∧ (n = 0 → off2 = off) ∧
      (0 < n → ∃ o rec, recs.getLast? = some rec ∧ parseRR msg fuel o = some (rec, off2)) := by
  intro n
  induction n with
  | zero =>
    intro off recs off2 h
    rw [parse_resource_records] at h
    simp only [Option.some.injEq, Prod.mk.injEq] at h
    refine ⟨?_, fun _ => h.2.symm, fun hn => absurd hn (by omega)⟩
    rw [← h.1]
    rfl
  | succ n ih =>
    intro off recs off2 h
    rw [parse_resource_records] at h
    cases hrr : parseRR msg fuel off with
    | none => rw [hrr] at h; simp at h
    | some p =>
      obtain ⟨rec, offm⟩ := p
      rw [hrr] at h
      simp only at h
      cases hrest : parse_resource_records msg fuel n offm with
      | none => rw [hrest] at h; simp at h
      | some q =>
        obtain ⟨recs2, off3⟩ := q
        rw [hrest] at h
        simp only [Option.some.injEq, Prod.mk.injEq] at h
        obtain ⟨hrecs, hoff⟩ := h
        obtain ⟨hlen, hzero, hlast⟩ := ih offm recs2 off3 hrest
        subst hrecs
        refine ⟨by simp [hlen], fun hc => absurd hc (by omega), fun _ => ?_⟩
        cases n with
        | zero =>
          have hnil : recs2 = [] := List.length_eq_zero.mp hlen
          subst hnil
          have hoo : offm = off2 := (hzero rfl).symm.trans hoff
          exact ⟨off, rec, rfl, by rw [hrr, hoo]⟩
        | succ m =>
          obtain ⟨o, rec2, hl, hp⟩ := hlast (by omega)
          obtain ⟨a, t, hat⟩ : ∃ a t, recs2 = a :: t := by
            cases recs2 with
            | nil => simp at hlen
            | cons a t => exact ⟨a, t, rfl⟩
          refine ⟨o, rec2, ?_, by rw [hp, hoff]⟩
          rw [hat, List.getLast?_cons_cons, ← hat, hl]

/-! ## Lemmas about server selection and answer extraction -/

/-- The nested for-loops of `choose_next_server` compute the first hit of
the NS-name-major scan. -/
theorem findGlue_eq_findSome? :
    ∀ (ns : List RData) (adds : List ResourceRecord),
      findGlue ns adds = ns.findSome? (fun n => adds.find? (fun add => nameEqRData add.name n)) := by
  intro ns adds
  induction ns with
  | nil => rfl
  | cons n rest ih =>
    rw [findGlue, List.findSome?_cons]
    cases adds.find? (fun add => nameEqRData add.name n) with
    | none => simpa using ih
    | some a => rfl

/-- Mapping under `findSome?` commutes with mapping the result. -/
theorem findSome?_map_result {α β γ : Type} (f : α → Option β) (g : β → γ) :
    ∀ l : List α, (l.findSome? fun a => (f a).map g) = (l.findSome? f).map g := by
  intro l
  induction l with
  | nil => rfl
  | cons a rest ih =>
    rw [List.findSome?_cons, List.findSome?_cons]
    cases f a with
    | none => simpa using ih
    | some b => rfl

/-- `choose_next_server` agrees with the selection rule as the claim
states it. -/
theorem choose_next_server_eq_spec (p : ParsedResponse) :
    choose_next_server p = specChooseNextServer p := by
  unfold choose_next_server specChooseNextServer
  rw [findSome?_map_result, ← findGlue_eq_findSome?]
  cases findGlue (nsTargets p) (additionalARecords p) with
  | none =>
    cases additionalARecords p with
    | nil => rfl
    | cons a rest => rfl
  | some a => rfl

/-- The extraction loop is selection by type alone followed by projection
to the stored rdata. -/
theorem extractIpsLoop_eq_filter_map :
    ∀ l : List ResourceRecord,
      extractIpsLoop l = (l.filter (fun rr => decide (rr.rtype = 1))).map (·.rdata) := by
  intro l
  induction l with
  | nil => rfl
  | cons rr rest ih =>
    by_cases h : rr.rtype = 1 <;> simp [extractIpsLoop, h, ih]

/-- A type-1 record in the list guarantees a non-empty extraction. -/
theorem extractIpsLoop_ne_nil :
    ∀ (l : List ResourceRecord) (rr : ResourceRecord), rr ∈ l → rr.rtype = 1 →
      extractIpsLoop l ≠ [] := by
  intro l
  induction l with
  | nil => intro rr h; simp at h
  | cons a rest ih =>
    intro rr hmem ht
    rw [extractIpsLoop]
    by_cases ha : a.rtype = 1
    · rw [if_pos ha]; simp
    · rw [if_neg ha]
      rcases List.mem_cons.mp hmem with heq | hmem2
      · exact absurd (heq ▸ ht) ha
      · exact ih rr hmem2 ht

/-- A type-1 record's stored rdata is extracted, whatever it is. -/
theorem extractIpsLoop_mem :
    ∀ (l : List ResourceRecord) (rr : ResourceRecord), rr ∈ l → rr.rtype = 1 →
      rr.rdata ∈ extractIpsLoop l := by
  intro l
  induction l with
  | nil => intro rr h; simp at h
  | cons a rest ih =>
    intro rr hmem ht
    rw [extractIpsLoop]
    rcases List.mem_cons.mp hmem with heq | hmem2
    · subst heq
      rw [if_pos ht]
      exact List.mem_cons_self _ _
    · by_cases ha : a.rtype = 1
      · rw [if_pos ha]
        exact List.mem_cons_of_mem _ (ih rr hmem2 ht)
      · rw [if_neg ha]
        exact ih rr hmem2 ht

/-! ## Lemmas about the resolution loop -/

/-- Every receive performed during a run uses the timeout stored in the
session; the loop body never changes it. -/
theorem resolveLoop_timeout_fixed (fn : Nat) (sess : Session) :
    ∀ fuel server replies trace r,
      resolveLoop fn sess fuel server replies = some (trace, r) →
      ∀ e ∈ trace, e.2 = sess.timeoutSeconds := by
  intro fuel
  induction fuel with
  | zero =>
    intro server replies trace r h
    rw [resolveLoop] at h
    simp at h
  | succ fuel ih =>
    intro server replies trace r h
    cases replies with
    | nil => rw [resolveLoop] at h; simp at h
    | cons reply rest =>
      cases reply with
      | none =>
        rw [resolveLoop] at h
        simp only [Option.some.injEq, Prod.mk.injEq] at h
        rw [← h.1]
        simp
      | some data =>
        rw [resolveLoop] at h
        cases hp : parse_dns_response fn data with
        | none =>
          rw [hp] at h
          simp only [Option.some.injEq, Prod.mk.injEq] at h
          rw [← h.1]
          simp
        | some parsed =>
          rw [hp] at h
          simp only at h
          by_cases he : extract_answer_ips parsed = []
          · rw [if_pos he] at h
            cases hc : choose_next_server parsed with
            | none =>
              rw [hc] at h
              simp only [Option.some.injEq, Prod.mk.injEq] at h
              rw [← h.1]
              simp
            | some next =>
              rw [hc] at h
              simp only at h
              cases hrec : resolveLoop fn sess fuel next rest with
              | none => rw [hrec] at h; simp at h
              | some pr =>
                rw [hrec] at h
                have h2 : some ((server, sess.timeoutSeconds) :: pr.1, pr.2) = some (trace, r) := h
                simp only [Option.some.injEq, Prod.mk.injEq] at h2
                obtain ⟨htr, _⟩ := h2
                intro e hmem
                rw [← htr] at hmem
                rcases List.mem_cons.mp hmem with heq | hmem2
                · rw [heq]
                · exact ih next rest pr.1 pr.2 (by rw [hrec]) e hmem2
          · rw [if_neg he] at h
            simp only [Option.some.injEq, Prod.mk.injEq] at h
            rw [← h.1]
            simp

/-- A timed-out receive ends the run at once: one recorded receive, result
`timedOut`, no retry against the same or any other server. -/
theorem resolveLoop_timeout_stops (fn : Nat) (sess : Session) (fuel : Nat) (server : RData)
    (rest : List (Option Bytes)) :
    resolveLoop fn sess (fuel + 1) server (none :: rest) =
      some ([(server, sess.timeoutSeconds)], RunResult.timedOut) := rfl

/-! ## Lemmas about query building and the round trip -/

/-- `split` never yields an empty list of pieces. -/
theorem splitDots_ne_nil : ∀ s : Bytes, splitDots s ≠ [] := by
  intro s
  cases s with
  | nil => simp [splitDots]
  | cons c rest =>
    rw [splitDots]
    by_cases hc : c = 46
    · rw [if_pos hc]; simp
    · rw [if_neg hc]
      cases splitDots rest <;> simp

/-- Joining the split pieces with dots restores the original string. -/
theorem joinDots_splitDots : ∀ s : Bytes, joinDots (splitDots s) = s := by
  intro s
  induction s with
  | nil => rfl
  | cons c rest ih =>
    rw [splitDots]
    by_cases hc : c = 46
    · rw [if_pos hc]
      obtain ⟨a, t, hat⟩ : ∃ a t, splitDots rest = a :: t := by
        cases h : splitDots rest with
        | nil => exact absurd h (splitDots_ne_nil rest)
        | cons a t => exact ⟨a, t, rfl⟩
      rw [hat]
      rw [hat] at ih
      rw [joinDots]
      simp only [List.nil_append]
      rw [ih, hc]
    · rw [if_neg hc]
      cases hs : splitDots rest with
      | nil => exact absurd hs (splitDots_ne_nil rest)
      | cons l ls =>
        rw [hs] at ih
        cases ls with
        | nil =>
          rw [joinDots]
          rw [joinDots] at ih
          rw [ih]
        | cons a t =>
          rw [joinDots, List.cons_append]
          rw [joinDots] at ih
          rw [ih]

/-- A successful qname encoding is the claimed byte layout, and certifies
that every label was packable and ASCII. -/
theorem encodeQname_eq :
    ∀ labels enc, encodeQname labels = some enc →
      enc = specEncodeLabels labels ∧
      ∀ l ∈ labels, l.length < 256 ∧ ∀ c ∈ l, c < 128 := by
  intro labels
  induction labels with
  | nil =>
    intro enc h
    rw [encodeQname] at h
    simp only [Option.some.injEq] at h
    exact ⟨h.symm, by simp⟩
  | cons label rest ih =>
    intro enc h
    rw [encodeQname] at h
    by_cases hlen : label.length < 256
    case neg => rw [packB, if_neg hlen] at h; simp at h
    rw [packB, if_pos hlen] at h
    simp only at h
    by_cases hasc : label.all (· < 128)
    case neg => rw [encodeAscii, if_neg (by simpa using hasc)] at h; simp at h
    rw [encodeAscii, if_pos (by simpa using hasc)] at h
    simp only at h
    cases hrest : encodeQname rest with
    | none => rw [hrest] at h; simp at h
    | some rb =>
      rw [hrest] at h
      simp only [Option.some.injEq] at h
      obtain ⟨hrb, hall⟩ := ih rb hrest
      constructor
      · rw [← h, hrb, specEncodeLabels]
        simp
      · intro l hl
        rcases List.mem_cons.mp hl with heq | hmem
        · subst heq
          refine ⟨hlen, fun c hcmem => ?_⟩
          simpa using List.all_eq_true.mp hasc c hcmem
        · exact hall l hmem

/-- Valid labels always encode, to the claimed layout. -/
theorem encodeQname_of_valid :
    ∀ labels, (∀ l ∈ labels, l.length < 256 ∧ ∀ c ∈ l, c < 128) →
      encodeQname labels = some (specEncodeLabels labels) := by
  intro labels
  induction labels with
  | nil => intro _; rfl
  | cons label rest ih =>
    intro hvalid
    obtain ⟨hlen, hasc⟩ := hvalid label (List.mem_cons_self _ _)
    rw [encodeQname, packB, if_pos hlen]
    simp only
    rw [encodeAscii, if_pos (List.all_eq_true.mpr fun c hc => by simpa using hasc c hc)]
    simp only
    rw [ih (fun l hl => hvalid l (List.mem_cons_of_mem _ hl))]
    simp [specEncodeLabels]

/-- On ASCII strings, Python's default UTF-8 encoding is the identity. -/
theorem encodeUtf8_ascii :
    ∀ l : Bytes, (∀ c ∈ l, c < 128) → encodeUtf8 l = some l := by
  intro l
  induction l with
  | nil => intro _; rfl
  | cons c rest ih =>
    intro h
    rw [encodeUtf8, utf8Char, if_pos (h c (List.mem_cons_self _ _))]
    simp only
    rw [ih (fun d hd => h d (List.mem_cons_of_mem _ hd))]
    rfl

/-- On valid ASCII labels, the dns.py qname loop produces the same bytes. -/
theorem encodeQnameUtf8_of_valid :
    ∀ labels, (∀ l ∈ labels, l.length < 256 ∧ ∀ c ∈ l, c < 128) →
      encodeQnameUtf8 labels = some (specEncodeLabels labels) := by
  intro labels
  induction labels with
  | nil => intro _; rfl
  | cons part rest ih =>
    intro hvalid
    obtain ⟨hlen, hasc⟩ := hvalid part (List.mem_cons_self _ _)
    rw [encodeQnameUtf8, packB, if_pos hlen]
    simp only
    rw [encodeUtf8_ascii part hasc]
    simp only
    rw [ih (fun l hl => hvalid l (List.mem_cons_of_mem _ hl))]
    simp [specEncodeLabels]

/-- A length byte of at most 63 never carries the pointer tag. -/
theorem small_and_192 : ∀ n < 64, n &&& 192 = 0 := by decide

/-- Parsing an encoded label sequence placed after an arbitrary prefix
reads back exactly those labels and stops one byte past the terminator. -/
theorem parse_encoded_labels (suf : Bytes) :
    ∀ (labels : List Bytes) (pre : Bytes) (acc : List Bytes) (orig : Nat),
      (∀ l ∈ labels, 1 ≤ l.length ∧ l.length ≤ 63 ∧ ∀ c ∈ l, c < 128) →
      parseNameAux (pre ++ specEncodeLabels labels ++ [0] ++ suf) (labels.length + 1)
          pre.length false acc orig
        = some (joinDots (acc ++ labels),
                pre.length + (specEncodeLabels labels).length + 1) := by
  intro labels
  induction labels with
  | nil =>
    intro pre acc orig _
    have hmsg : pre ++ specEncodeLabels [] ++ [0] ++ suf = pre ++ 0 :: suf := by
      rw [specEncodeLabels]; simp
    rw [hmsg]
    rw [parseNameAux]
    have hb : (pre ++ 0 :: suf)[pre.length]? = some 0 := by
      rw [List.getElem?_append_right (le_refl _)]
      simp
    rw [hb]
    simp only
    rw [if_neg (by decide), if_pos trivial, if_neg (by simp)]
    rw [specEncodeLabels]
    simp
  | cons label rest ih =>
    intro pre acc orig hvalid
    obtain ⟨hlen1, hlen63, hasc⟩ := hvalid label (List.mem_cons_self _ _)
    have hvrest : ∀ l ∈ rest, 1 ≤ l.length ∧ l.length ≤ 63 ∧ ∀ c ∈ l, c < 128 :=
      fun l hl => hvalid l (List.mem_cons_of_mem _ hl)
    have hmsg : pre ++ specEncodeLabels (label :: rest) ++ [0] ++ suf
        = (pre ++ label.length :: label) ++ specEncodeLabels rest ++ [0] ++ suf := by
      rw [specEncodeLabels]; simp
    rw [hmsg]
    simp only [List.length_cons]
    rw [parseNameAux]
    have hb : ((pre ++ label.length :: label) ++ specEncodeLabels rest ++ [0] ++ suf)[pre.length]?
        = some label.length := by
      have hflat : (pre ++ label.length :: label) ++ specEncodeLabels rest ++ [0] ++ suf
          = pre ++ label.length :: (label ++ (specEncodeLabels rest ++ [0] ++ suf)) := by
        simp
      rw [hflat, List.getElem?_append_right (le_refl _)]
      simp
    rw [hb]
    simp only
    have hna : ¬ (label.length &&& 0xC0 = 0xC0) := by
      have := small_and_192 label.length (by omega)
      omega
    rw [if_neg hna, if_neg (by omega)]
    have hslice : (((pre ++ label.length :: label) ++ specEncodeLabels rest ++ [0] ++ suf).drop
          (pre.length + 1)).take label.length = label := by
      have hflat : (pre ++ label.length :: label) ++ specEncodeLabels rest ++ [0] ++ suf
          = (pre ++ [label.length]) ++ (label ++ (specEncodeLabels rest ++ [0] ++ suf)) := by
        simp
      rw [hflat, List.drop_left' (by simp), List.take_left' rfl]
    rw [hslice, decodeAscii, if_pos (List.all_eq_true.mpr fun c hc => by simpa using hasc c hc)]
    simp only
    have hoff : pre.length + 1 + label.length = (pre ++ label.length :: label).length := by
      simp only [List.length_append, List.length_cons]
      omega
    rw [hoff]
    rw [ih (pre ++ label.length :: label) (acc ++ [label]) orig hvrest]
    simp only [Option.some.injEq, Prod.mk.injEq, specEncodeLabels, List.length_cons,
      List.length_append]
    constructor
    · simp
    · omega

/-- `findGlue` with no additional A records finds nothing. -/
theorem findGlue_nil : ∀ ns : List RData, findGlue ns [] = none := by
  intro ns
  induction ns with
  | nil => rfl
  | cons n rest ih =>
    rw [findGlue]
    simpa using ih

/-! ## Claim theorems -/

/-- C1: whenever `parse_name` returns, the decoded name is the labels
joined by dots in the order encountered (following pointers, per
`specCollectLabels`), and the returned resume offset is the one computed
by the forward scan `specFieldEnd` of the original field: two bytes past
the first-encountered compression pointer when a pointer occurs (the scan
never looks past the first pointer, so nested pointers after the first
jump cannot perturb it), and one byte past the terminating zero byte when
no pointer occurs. -/
theorem c1_parse_name_labels_and_resume (msg : Bytes) (fuel off : Nat) (nm : Bytes) (res : Nat)
    (h : parse_name msg fuel off = some (nm, res)) :
    ∃ labs ptr, specCollectLabels msg fuel off = some labs ∧ nm = joinDots labs ∧
      specFieldEnd msg fuel off = some (res, ptr) := by
  obtain ⟨⟨ptr, hfe⟩, labs, hcol, hnm⟩ := parseNameAux_forward msg fuel off [] off nm res h
  exact ⟨labs, ptr, hcol, by simpa using hnm, hfe⟩

/-- Witness for C1 on a concrete compressed name with a nested pointer. -/
theorem c1_witness :
    ∃ labs ptr, specCollectLabels c1msg 10 7 = some labs ∧
      [104, 105, 46, 99, 111, 109] = joinDots labs ∧
      specFieldEnd c1msg 10 7 = some (12, ptr) :=
  c1_parse_name_labels_and_resume c1msg 10 7 [104, 105, 46, 99, 111, 109] 12 (by rfl)

/-- C2: `parse_resource_records` honours the requested count, leaves the
cursor unchanged for a zero count, advances past every record by exactly
the record's declared rdata length beyond the end of the owner name plus
the 10 fixed header bytes — whatever the record type and whatever the
rdata interpretation consumed — and for a positive count the returned
offset is exactly the one computed this way for the last record. -/
theorem c2_offset_integrity (msg : Bytes) (fuel n off : Nat)
    (recs : List ResourceRecord) (off2 : Nat)
    (h : parse_resource_records msg fuel n off = some (recs, off2)) :
    recs.length = n ∧ (n = 0 → off2 = off) ∧
    (∀ o rec o3, parseRR msg fuel o = some (rec, o3) →
      ∃ ne, parse_name msg fuel o = some (rec.name, ne) ∧ o3 = ne + 10 + rec.rdlength) ∧
    (0 < n → ∃ o rec, recs.getLast? = some rec ∧ parseRR msg fuel o = some (rec, off2)) := by
  obtain ⟨h1, h2, h3⟩ := parse_resource_records_shape msg fuel n off recs off2 h
  refine ⟨h1, h2, fun o rec o3 hrr => ?_, h3⟩
  obtain ⟨ne, hne, _, hoff⟩ := parseRR_offset msg fuel o rec o3 hrr
  exact ⟨ne, hne, hoff⟩

/-- Witness for C2 on a concrete two-record buffer of mixed types. -/
theorem c2_witness :
    c2recs.length = 2 ∧ ((2 : Nat) = 0 → (31 : Nat) = 0) ∧
    (∀ o rec o3, parseRR c2msg 16 o = some (rec, o3) →
      ∃ ne, parse_name c2msg 16 o = some (rec.name, ne) ∧ o3 = ne + 10 + rec.rdlength) ∧
    ((0 : Nat) < 2 → ∃ o rec, c2recs.getLast? = some rec ∧ parseRR c2msg 16 o = some (rec, 31)) :=
  c2_offset_integrity c2msg 16 2 0 c2recs 31 (by rfl)

/-- C5: the claim is what the specification demands, but the code violates
it: in `main`, `parse_dns_response(response_data)` (src/mydns.py line 203)
sits outside the try/except, whose except clause (line 199) catches only
`socket.timeout` around `recvfrom`.  On a datagram that fails to decode —
here a 5-byte buffer, on which the 12-byte header unpack raises
struct.error — the exception propagates out of `main` uncaught
(`RunResult.crashed`), instead of surfacing as a single reported
resolution-failed outcome. -/
theorem c5_decode_failure_crashes :
    resolveLoop 16 setupSession 1 (RData.str [49, 46, 50, 46, 51, 46, 52])
        [some [0, 1, 2, 3, 4]] =
      some ([(RData.str [49, 46, 50, 46, 51, 46, 52], 5)], RunResult.crashed) := by rfl

/-- C6: encoding a query for a non-empty dot-separated domain whose labels
have valid length (1 to 63) and ASCII characters, then decoding just the
question-section name from the produced bytes at offset 12, reproduces the
original domain exactly. -/
theorem c6_round_trip (tid : Nat) (domain : Bytes)
    (htid : tid < 65536)
    (hlabels : ∀ l ∈ splitDots domain, 1 ≤ l.length ∧ l.length ≤ 63 ∧ ∀ c ∈ l, c < 128) :
    ∃ q, build_dns_query tid domain = some (tid, q) ∧
      parse_name q ((splitDots domain).length + 1) 12 =
        some (domain, 12 + (specEncodeLabels (splitDots domain)).length + 1) := by
  have henc : encodeQname (splitDots domain) = some (specEncodeLabels (splitDots domain)) :=
    encodeQname_of_valid _ (fun l hl =>
      ⟨by have := (hlabels l hl).2.1; omega, (hlabels l hl).2.2⟩)
  refine ⟨[tid / 256, tid % 256] ++ [1, 0] ++ [0, 1] ++ [0, 0] ++ [0, 0] ++ [0, 0]
      ++ (specEncodeLabels (splitDots domain) ++ [0]) ++ [0, 1] ++ [0, 1], ?_, ?_⟩
  · rw [build_dns_query, packH, if_pos htid]
    simp only
    rw [henc]
  · have hq : [tid / 256, tid % 256] ++ [1, 0] ++ [0, 1] ++ [0, 0] ++ [0, 0] ++ [0, 0]
        ++ (specEncodeLabels (splitDots domain) ++ [0]) ++ [0, 1] ++ [0, 1]
        = [tid / 256, tid % 256, 1, 0, 0, 1, 0, 0, 0, 0, 0, 0]
            ++ specEncodeLabels (splitDots domain) ++ [0] ++ [0, 1, 0, 1] := by
      simp
    rw [hq, parse_name]
    rw [show (12 : Nat)
        = ([tid / 256, tid % 256, 1, 0, 0, 1, 0, 0, 0, 0, 0, 0] : Bytes).length from by simp]
    rw [parse_encoded_labels [0, 1, 0, 1] (splitDots domain)
        [tid / 256, tid % 256, 1, 0, 0, 1, 0, 0, 0, 0, 0, 0] [] _ hlabels]
    simp [joinDots_splitDots]

/-- Witness for C6 on the domain "ab.c" with transaction id 4660. -/
theorem c6_witness :
    ∃ q, build_dns_query 4660 [97, 98, 46, 99] = some (4660, q) ∧
      parse_name q ((splitDots [97, 98, 46, 99]).length + 1) 12 =
        some ([97, 98, 46, 99],
          12 + (specEncodeLabels (splitDots [97, 98, 46, 99])).length + 1) :=
  c6_round_trip 4660 [97, 98, 46, 99] (by decide) (by decide)

/-- C7: whenever `build_dns_query` returns, it returns the generated
transaction id alongside bytes laid out exactly as six big-endian 16-bit
header fields (id, flags 0x0100, qdcount 1, ancount 0, nscount 0,
arcount 0), the length-prefixed labels, a zero byte, and big-endian
query-type 1 and query-class 1; and `build_query_packet` of src/dns.py
produces the same bytes with the id alongside.  Both are pure functions of
their inputs in this embedding, with no other effect. -/
theorem c7_query_layout (tid : Nat) (domain : Bytes) (out : Nat × Bytes)
    (h : build_dns_query tid domain = some out) :
    out.1 = tid ∧ tid < 65536 ∧
    out.2 = [tid / 256, tid % 256] ++ [1, 0] ++ [0, 1] ++ [0, 0] ++ [0, 0] ++ [0, 0]
        ++ (specEncodeLabels (splitDots domain) ++ [0]) ++ [0, 1] ++ [0, 1] ∧
    build_query_packet tid domain = some (out.2, out.1) := by
  rw [build_dns_query] at h
  by_cases htid : tid < 65536
  case neg => rw [packH, if_neg htid] at h; simp at h
  rw [packH, if_pos htid] at h
  simp only at h
  cases henc : encodeQname (splitDots domain) with
  | none => rw [henc] at h; simp at h
  | some qn =>
    rw [henc] at h
    simp only [Option.some.injEq] at h
    obtain ⟨hqn, hvalid⟩ := encodeQname_eq (splitDots domain) qn henc
    subst hqn
    refine ⟨?_, htid, ?_, ?_⟩
    · rw [← h]
    · rw [← h]
    · rw [build_query_packet, packH, if_pos htid]
      simp only
      rw [encodeQnameUtf8_of_valid _ hvalid]
      rw [← h]

/-- Witness for C7 on the domain "a" with transaction id 1. -/
theorem c7_witness :
    ((1, [0, 1, 1, 0, 0, 1, 0, 0, 0, 0, 0, 0, 1, 97, 0, 0, 1, 0, 1]) : Nat × Bytes).1 = 1 ∧
    (1 : Nat) < 65536 ∧
    ((1, [0, 1, 1, 0, 0, 1, 0, 0, 0, 0, 0, 0, 1, 97, 0, 0, 1, 0, 1]) : Nat × Bytes).2 =
      [1 / 256, 1 % 256] ++ [1, 0] ++ [0, 1] ++ [0, 0] ++ [0, 0] ++ [0, 0]
        ++ (specEncodeLabels (splitDots [97]) ++ [0]) ++ [0, 1] ++ [0, 1] ∧
    build_query_packet 1 [97] =
      some (((1, [0, 1, 1, 0, 0, 1, 0, 0, 0, 0, 0, 0, 1, 97, 0, 0, 1, 0, 1]) : Nat × Bytes).2,
            ((1, [0, 1, 1, 0, 0, 1, 0, 0, 0, 0, 0, 0, 1, 97, 0, 0, 1, 0, 1]) : Nat × Bytes).1) :=
  c7_query_layout 1 [97] (1, [0, 1, 1, 0, 0, 1, 0, 0, 0, 0, 0, 0, 1, 97, 0, 0, 1, 0, 1]) (by rfl)

/-- C9: whenever `parse_name` returns, the next offset is strictly past
the start offset: greater by at least 2 when the first byte read carries
the pointer tag, and by at least 1 otherwise, so every name field consumes
at least one byte and the enclosing parsers make forward progress. -/
theorem c9_forward_progress (msg : Bytes) (fuel off : Nat) (nm : Bytes) (res : Nat)
    (h : parse_name msg fuel off = some (nm, res)) :
    off < res ∧ ∀ b, msg[off]? = some b →
      (b &&& 0xC0 = 0xC0 → off + 2 ≤ res) ∧ (¬ b &&& 0xC0 = 0xC0 → off + 1 ≤ res) := by
  obtain ⟨⟨ptr, hfe⟩, _⟩ := parseNameAux_forward msg fuel off [] off nm res h
  refine ⟨specFieldEnd_lt msg fuel off res ptr hfe, fun b hb => ?_⟩
  obtain ⟨h1, h2⟩ := specFieldEnd_first msg fuel off res ptr b hfe hb
  exact ⟨fun hc => le_of_eq (h1 hc).symm, h2⟩

/-- Witness for C9 on the one-byte root name. -/
theorem c9_witness :
    (0 : Nat) < 1 ∧ ∀ b, ([0] : Bytes)[0]? = some b →
      (b &&& 0xC0 = 0xC0 → 0 + 2 ≤ 1) ∧ (¬ b &&& 0xC0 = 0xC0 → 0 + 1 ≤ 1) :=
  c9_forward_progress [0] 1 0 [] 1 (by rfl)

/-- C3: next-server selection returns the address of the first additional
A record whose owner name exactly matches an NS target name, scanning NS
names in section order and, for each, additional A records in section
order; with no exact match it falls back to the first additional A record;
with no additional A record at all it returns no server, and the engine
then ends the run in the no-next-server (NO_PROGRESS) outcome. -/
theorem c3_next_server_selection :
    (∀ p, choose_next_server p = specChooseNextServer p) ∧
    (∀ p, additionalARecords p = [] → choose_next_server p = none) ∧
    (∀ fn fuel sess server data rest p,
      parse_dns_response fn data = some p →
      extract_answer_ips p = [] →
      choose_next_server p = none →
      resolveLoop fn sess (fuel + 1) server (some data :: rest) =
        some ([(server, sess.timeoutSeconds)], RunResult.noNextServer)) := by
  refine ⟨choose_next_server_eq_spec, ?_, ?_⟩
  · intro p hadd
    rw [choose_next_server, hadd, findGlue_nil]
  · intro fn fuel sess server data rest p hp he hc
    rw [resolveLoop, hp]
    simp only
    rw [if_pos he, hc]

/-- Witness for C3: the selection rule on the spec's test vector, the
empty-additional case, and a concrete run ending with no next server. -/
theorem c3_witness :
    choose_next_server c3resp = specChooseNextServer c3resp ∧
    choose_next_server c3noglue = none ∧
    resolveLoop 16 setupSession 1 (RData.str [57]) (some c3msg :: []) =
      some ([(RData.str [57], 5)], RunResult.noNextServer) :=
  ⟨c3_next_server_selection.1 c3resp,
   c3_next_server_selection.2.1 c3noglue (by rfl),
   c3_next_server_selection.2.2 16 0 setupSession (RData.str [57]) c3msg []
     { id := 0, flags := 32768, answers := [],
       authorities := [{ name := [], rtype := 2, rclass := 1, ttl := 0, rdlength := 4,
                         rdata := RData.str [110, 115] }],
       additionals := [] }
     (by rfl) (by rfl) (by rfl)⟩

/-- C4: a decoded response whose answer section holds at least one type-A
record ends the run in the answered state with exactly the stored rdata of
the type-1 answer records, in section order, regardless of the authority
and additional sections. -/
theorem c4_answered (fn : Nat) (p : ParsedResponse)
    (hA : ∃ rr ∈ p.answers, rr.rtype = 1) :
    extract_answer_ips p ≠ [] ∧
    extract_answer_ips p =
      (p.answers.filter (fun rr => decide (rr.rtype = 1))).map (·.rdata) ∧
    ∀ fuel sess server data rest, parse_dns_response fn data = some p →
      resolveLoop fn sess (fuel + 1) server (some data :: rest) =
        some ([(server, sess.timeoutSeconds)], RunResult.answered (extract_answer_ips p)) := by
  obtain ⟨rr, hmem, ht⟩ := hA
  have hne : extract_answer_ips p ≠ [] := extractIpsLoop_ne_nil p.answers rr hmem ht
  refine ⟨hne, extractIpsLoop_eq_filter_map p.answers, ?_⟩
  intro fuel sess server data rest hp
  rw [resolveLoop, hp]
  simp only
  rw [if_neg hne]


/-- Witness for C4: the run on `c4msg` ends answered with the A answer's
address even though authority and additional sections are populated. -/
theorem c4_witness :
    extract_answer_ips c4resp ≠ [] ∧
    extract_answer_ips c4resp =
      (c4resp.answers.filter (fun rr => decide (rr.rtype = 1))).map (·.rdata) ∧
    resolveLoop 16 setupSession 1 (RData.str [57]) (some c4msg :: []) =
      some ([(RData.str [57], 5)], RunResult.answered (extract_answer_ips c4resp)) := by
  obtain ⟨h1, h2, h3⟩ := c4_answered 16 c4resp
    ⟨{ name := [], rtype := 1, rclass := 1, ttl := 0, rdlength := 4,
       rdata := RData.str [57, 51, 46, 49, 56, 52, 46, 50, 49, 54, 46, 51, 52] },
     List.mem_singleton.mpr rfl, rfl⟩
  exact ⟨h1, h2, h3 0 setupSession (RData.str [57]) c4msg [] (by rfl)⟩

/-- C8: every receive performed during a run uses the timeout fixed at
session setup (the loop never reconfigures it), and a timed-out receive
ends the whole run at once in the timed-out outcome, with no retry and no
advance to an alternate server. -/
theorem c8_fixed_timeout :
    (∀ fn fuel server replies trace r,
        resolveLoop fn setupSession fuel server replies = some (trace, r) →
        ∀ e ∈ trace, e.2 = setupSession.timeoutSeconds) ∧
    (∀ fn sess fuel server rest,
        resolveLoop fn sess (fuel + 1) server (none :: rest) =
          some ([(server, sess.timeoutSeconds)], RunResult.timedOut)) :=
  ⟨fun fn => resolveLoop_timeout_fixed fn setupSession,
   fun fn sess fuel server rest => resolveLoop_timeout_stops fn sess fuel server rest⟩

/-- Witness for C8 on a run whose first receive times out. -/
theorem c8_witness :
    (∀ e ∈ [((RData.str [57] : RData), (5 : Nat))], e.2 = setupSession.timeoutSeconds) ∧
    resolveLoop 16 setupSession 1 (RData.str [57]) [none] =
      some ([(RData.str [57], 5)], RunResult.timedOut) :=
  ⟨c8_fixed_timeout.1 16 1 (RData.str [57]) [none] [(RData.str [57], 5)]
     RunResult.timedOut (by rfl),
   c8_fixed_timeout.2 16 setupSession 0 (RData.str [57]) []⟩


/-- C10: an answer record with type 1 and declared rdata_length other
than 4 gets the raw uninterpreted rdata bytes stored instead of a dotted
IPv4 string, extraction still selects it by type alone, and so the run can
end answered with a raw-bytes value in its result set — shown concretely
on `c10msg`, whose run answers with the six raw bytes. -/
theorem c10_raw_bytes_answer :
    (∀ msg fuel off rec off2, parseRR msg fuel off = some (rec, off2) →
      rec.rtype = 1 → rec.rdlength ≠ 4 → ∃ bs, rec.rdata = RData.bytes bs) ∧
    (∀ (l : List ResourceRecord) rr, rr ∈ l → rr.rtype = 1 → rr.rdata ∈ extractIpsLoop l) ∧
    resolveLoop 16 setupSession 1 (RData.str [57]) [some c10msg] =
      some ([(RData.str [57], 5)], RunResult.answered [RData.bytes [1, 2, 3, 4, 5, 6]]) := by
  refine ⟨?_, extractIpsLoop_mem, by rfl⟩
  intro msg fuel off rec off2 h h1 h4
  unfold parseRR at h
  cases hpn : parse_name msg fuel off with
  | none => rw [hpn] at h; simp at h
  | some p =>
    obtain ⟨name, off1⟩ := p
    rw [hpn] at h
    simp only at h
    by_cases h10 : off1 + 10 ≤ msg.length
    · rw [if_pos h10] at h
      by_cases hc1 : readU16 msg off1 = 1 ∧ readU16 msg (off1 + 8) = 4
      · rw [if_pos hc1] at h
        simp only [Option.some.injEq, Prod.mk.injEq] at h
        obtain ⟨hrec, _⟩ := h
        subst hrec
        exact absurd hc1.2 (by simpa using h4)
      · rw [if_neg hc1] at h
        by_cases hc2 : readU16 msg off1 = 2
        · rw [if_pos hc2] at h
          cases hpn2 : parse_name msg fuel (off1 + 10) with
          | none => rw [hpn2] at h; simp at h
          | some q =>
            obtain ⟨ns, o2⟩ := q
            rw [hpn2] at h
            simp only [Option.some.injEq, Prod.mk.injEq] at h
            obtain ⟨hrec, _⟩ := h
            subst hrec
            have hr1 : readU16 msg off1 = 1 := h1
            omega
        · rw [if_neg hc2] at h
          simp only [Option.some.injEq, Prod.mk.injEq] at h
          obtain ⟨hrec, _⟩ := h
          subst hrec
          exact ⟨_, rfl⟩
    · rw [if_neg h10] at h
      simp at h

/-- Witness for C10 on the record decoded from `c10msg`. -/
theorem c10_witness :
    (∃ bs, ({ name := [], rtype := 1, rclass := 1, ttl := 0, rdlength := 6,
              rdata := RData.bytes [1, 2, 3, 4, 5, 6] } : ResourceRecord).rdata
        = RData.bytes bs) ∧
    ({ name := [], rtype := 1, rclass := 1, ttl := 0, rdlength := 6,
       rdata := RData.bytes [1, 2, 3, 4, 5, 6] } : ResourceRecord).rdata ∈
      extractIpsLoop [{ name := [], rtype := 1, rclass := 1, ttl := 0, rdlength := 6,
                        rdata := RData.bytes [1, 2, 3, 4, 5, 6] }] :=
  ⟨c10_raw_bytes_answer.1 c10msg 16 12
     { name := [], rtype := 1, rclass := 1, ttl := 0, rdlength := 6,
       rdata := RData.bytes [1, 2, 3, 4, 5, 6] } 29 (by rfl) (by rfl) (by decide),
   c10_raw_bytes_answer.2.1 _ _ (List.mem_singleton.mpr rfl) rfl⟩

end DNS
